import Mathlib

/-!
Shallow embedding of the STL-Extension headers `trx/felix/type_traits.h` and
`trx/felix/algorithm.h`, and proofs about them.

Modelling conventions:
* A range `[first, last)` over a forward iterator is a `List α` together with
  positions `0 .. l.length`; position `l.length` is the end sentinel `last`.
  Dereferencing position `i` is `l.get? i`; the value `none` models the
  out-of-bounds read `*last` (undefined behaviour in the C++ source), so a
  function returns `none` exactly when the C++ dereferences the end sentinel.
* Argument packs are a head value plus a `List` of the remaining values.
* Compile-time boolean template packs are `List Bool`.
-/

namespace Trx

/-- Embedding of `trx::detail_trx::tlx_and_impl` (type_traits.h lines 10-26):
three overloads — the empty pack returns `true`, a single flag returns itself,
and two or more flags return the head conjoined with the reduction of the
tail. -/
def tlx_and_impl : List Bool → Bool
  | [] => true
  | [v] => v
  | v :: w :: vs => v && tlx_and_impl (w :: vs)

/-- Embedding of `trx::tlx_and` (type_traits.h lines 34-37): forwards to
`tlx_and_impl`. -/
def tlx_and (vals : List Bool) : Bool :=
  tlx_and_impl vals

/-- Embedding of the loop of `trx::best_if` (algorithm.h lines 81-85):

```
ForwardIt best = last;
for (; first!=last; ++first)
  if (up(*first) && (first==last || bp(*first, *best)))
    best = first;
return best;
```

`first` walks the suffix `x :: rest` of the scanned list `l` (so `*first` is
`x` and the loop ends when the suffix is empty, i.e. `first == last`);
`best` is a position into `l`, initially `l.length` (the sentinel `last`).
The test `first = l.length` transcribes the source's `first==last`, which is
unreachable inside the loop body; `l.get? best` transcribes `*best`, and the
`none` branch is the out-of-bounds read `*last`. -/
def bestIfLoop {α : Type} (up : α → Bool) (bp : α → α → Bool) (l : List α) :
    List α → Nat → Nat → Option Nat
  | [], _, best => some best
  | x :: rest, first, best =>
    if up x then
      if first = l.length then
        bestIfLoop up bp l rest (first + 1) first
      else
        match l.get? best with
        | none => none
        | some b =>
          if bp x b then bestIfLoop up bp l rest (first + 1) first
          else bestIfLoop up bp l rest (first + 1) best
    else bestIfLoop up bp l rest (first + 1) best

/-- Embedding of `trx::best_if` (algorithm.h lines 78-86) on the whole range
`[0, l.length)`: `some i` is the returned iterator position, `none` means the
run dereferenced the end sentinel. -/
def bestIf {α : Type} (up : α → Bool) (bp : α → α → Bool) (l : List α) :
    Option Nat :=
  bestIfLoop up bp l l 0 l.length

/-- Embedding of the `std::max_element` loop that `trx::max_among` runs over
the array `{first, rest...}` (algorithm.h line 117): `largest` starts at the
first element; each later element replaces it only when strictly greater
(`lt best x`). The scan carries the current best value, its position `bi`,
and the position `cur` of the element under examination, and returns the
best value with its position. -/
def maxElemScan {α : Type} (lt : α → α → Bool) :
    α → Nat → Nat → List α → α × Nat
  | b, bi, _, [] => (b, bi)
  | b, bi, cur, x :: xs =>
    if lt b x then maxElemScan lt x cur (cur + 1) xs
    else maxElemScan lt b bi (cur + 1) xs

/-- Embedding of `trx::max_among` (algorithm.h lines 110-118): the value of
`*std::max_element` over `{first, rest...}` under the default `operator<`. -/
def max_among {α : Type} [LinearOrder α] (first : α) (rest : List α) : α :=
  (maxElemScan (fun a c => decide (a < c)) first 0 1 rest).1

/-- Embedding of the `static_assert` guard of `trx::max_among` (algorithm.h
lines 112-114): `sizeof...(rest)==0 || tlx_and<std::is_same<Arg, Args>::value...>()`,
where each flag of `sameType` records whether the corresponding later
argument has the same type as the first. -/
def maxAmongGuard (sameType : List Bool) : Bool :=
  sameType.isEmpty || tlx_and sameType

/-- Embedding of `trx::max_among_trunc` (algorithm.h lines 144-147): casts
every later argument to the type of the first (`conv` models
`static_cast<Arg>`) and forwards to `max_among`. -/
def max_among_trunc {α β : Type} [LinearOrder α] (conv : β → α) (first : α)
    (rest : List β) : α :=
  max_among first (rest.map conv)

/-- Conversion `static_cast<int>(double)` used by the documented example of
`max_among_trunc`, on exact rationals: truncation toward zero. -/
def ratTruncToInt (q : Rat) : Int :=
  if 0 ≤ q then ⌊q⌋ else ⌈q⌉

/-- Embedding of `trx::detail_trx::sort_impl` (algorithm.h lines 19-41): all
three overloads (list/forward_list, vector/deque, array) reorder the
container into ascending order under the default `operator<`; the functional
behaviour is a sorting of the element sequence. -/
def sort_impl {α : Type} [LinearOrder α] (l : List α) : List α :=
  l.insertionSort (· ≤ ·)

/-- Embedding of the one-argument `trx::sort` (algorithm.h lines 170-173):
forwards to `detail_trx::sort_impl(container)`. -/
def sort {α : Type} [LinearOrder α] (l : List α) : List α :=
  sort_impl l

/-- The arities of the three `trx::detail_trx::sort_impl` overloads declared
in algorithm.h (lines 19-24, 27-33, 36-39): each takes exactly one argument,
the container. The two-argument `trx::sort` (algorithm.h lines 197-200)
calls `detail_trx::sort_impl(container, comp)` with two arguments. -/
def sortImplOverloadArities : List Nat :=
  [1, 1, 1]

theorem tlx_and_impl_eq_all (l : List Bool) : tlx_and_impl l = l.all id := by
  induction l with
  | nil => rfl
  | cons v vs ih =>
    cases vs with
    | nil => simp [tlx_and_impl]
    | cons w ws =>
      rw [tlx_and_impl, ih]
      simp

/-- C8: the logical-AND reduction `tlx_and` returns the conjunction of the
boolean pack; the empty pack reduces to `true`, and the pack
`(true, true, false)` reduces to `false`. -/
theorem tlx_and_spec :
    (∀ l : List Bool, tlx_and l = l.all id) ∧
    tlx_and [] = true ∧
    tlx_and [true, true, false] = false := by
  refine ⟨fun l => ?_, rfl, rfl⟩
  exact tlx_and_impl_eq_all l

/-- C10: `max_among` applied to a single argument passes its `static_assert`
guard (the rest pack is empty, so `sizeof...(rest)==0` already holds) and
returns a value equal to that argument. -/
theorem max_among_single :
    maxAmongGuard [] = true ∧
    ∀ (α : Type) [LinearOrder α] (x : α), max_among x ([] : List α) = x :=
  ⟨rfl, fun _ _ _ => rfl⟩

theorem bestIfLoop_best_last {α : Type} (up : α → Bool) (bp : α → α → Bool)
    (l : List α) :
    ∀ (rest : List α) (first : Nat), first + rest.length ≤ l.length →
      bestIfLoop up bp l rest first l.length =
        if rest.any up then none else some l.length := by
  intro rest
  induction rest with
  | nil => intro first h; simp [bestIfLoop]
  | cons x rest ih =>
    intro first h
    have hlen : first + (x :: rest).length = first + rest.length + 1 := by
      simp
      omega
    have hne : ¬ (first = l.length) := by omega
    have hnone : l.get? l.length = none := by
      exact List.get?_eq_none.mpr (le_refl _)
    rw [bestIfLoop]
    by_cases hup : up x = true
    · rw [if_pos hup, if_neg hne, hnone]
      simp [hup]
    · rw [if_neg hup, ih (first + 1) (by omega)]
      have hupf : up x = false := by
        cases hu : up x
        · rfl
        · exact absurd hu hup
      simp [hupf]

/-- C4: `best_if` returns the end sentinel (`last`, position `l.length`) if
and only if no element of the range satisfies the unary predicate; on the
empty range it returns the sentinel. -/
theorem bestIf_eq_last_iff :
    (∀ (α : Type) (l : List α) (up : α → Bool) (bp : α → α → Bool),
      bestIf up bp l = some l.length ↔ ∀ x ∈ l, up x = false) ∧
    bestIf (fun x => decide (x % 2 = 1)) (fun a c => decide (c < a))
      ([] : List Int) = some 0 := by
  constructor
  · intro α l up bp
    rw [bestIf, bestIfLoop_best_last up bp l l 0 (by omega)]
    by_cases ha : l.any up = true
    · rw [if_pos ha]
      simp only [List.any_eq_true] at ha
      obtain ⟨x, hx, hux⟩ := ha
      refine ⟨fun hcontra => absurd hcontra (by simp), fun hall => ?_⟩
      have hfx := hall x hx
      rw [hux] at hfx
      exact absurd hfx (by simp)
    · rw [if_neg ha]
      have hf : l.any up = false := by
        cases hu : l.any up
        · rfl
        · exact absurd hu ha
      refine ⟨fun _ x hx => ?_, fun _ => rfl⟩
      have := List.any_eq_false.mp hf x hx
      cases hu : up x
      · rfl
      · exact absurd hu this
  · rfl

/-- C1 (evidence of the code bug): on the range `1..10` from `best_if`'s own
documentation, with the odd-number qualifier and the greater-than comparator,
the first qualifying element already evaluates `bp(*first, *best)` while
`best` still holds the end sentinel — the guard in the source reads
`first==last` (dead inside the loop) where the doc's semantics need
`best==last` — so the run dereferences `last` (modelled by `none`) instead of
returning the iterator to `9` that the documentation asserts. -/
theorem bestIf_doc_example_derefs_sentinel :
    bestIf (fun x => decide (x % 2 = 1)) (fun a c => decide (c < a))
      ([1, 2, 3, 4, 5, 6, 7, 8, 9, 10] : List Int) = none := by
  decide

/-- C3 (evidence of the code bug): already on a one-element range whose
element qualifies, `best_if` reaches the branch that dereferences the
end-of-range position `last` (modelled by the `none` result): the error
branch is reachable, for any qualifying input. -/
theorem bestIf_qualifying_singleton_derefs_sentinel :
    bestIf (fun _ => true) (fun a c => decide (c < a)) ([7] : List Int)
      = none := by
  decide

theorem maxElemScan_invariant {α : Type} [LinearOrder α] (l : List α) :
    ∀ (xs : List α) (b : α) (bi cur : Nat),
      l.get? bi = some b →
      bi < cur →
      (∀ k, xs.get? k = l.get? (cur + k)) →
      (∀ j y, j < cur → l.get? j = some y → y ≤ b ∧ (j < bi → y < b)) →
      l.get? (maxElemScan (fun a c => decide (a < c)) b bi cur xs).2 =
          some (maxElemScan (fun a c => decide (a < c)) b bi cur xs).1 ∧
      b ≤ (maxElemScan (fun a c => decide (a < c)) b bi cur xs).1 ∧
      (∀ x ∈ xs, x ≤ (maxElemScan (fun a c => decide (a < c)) b bi cur xs).1) ∧
      (∀ j y, j < (maxElemScan (fun a c => decide (a < c)) b bi cur xs).2 →
        l.get? j = some y →
        y < (maxElemScan (fun a c => decide (a < c)) b bi cur xs).1) := by
  intro xs
  induction xs with
  | nil =>
    intro b bi cur hget hbicur hsuffix hinv
    refine ⟨hget, le_refl _, by simp, fun j y hj hy => ?_⟩
    exact (hinv j y (lt_trans hj hbicur) hy).2 hj
  | cons x xs ih =>
    intro b bi cur hget hbicur hsuffix hinv
    have hcur : l.get? cur = some x := by
      have h0 := hsuffix 0
      simpa using h0.symm
    have hsuffix1 : ∀ k, xs.get? k = l.get? (cur + 1 + k) := by
      intro k
      have hk := hsuffix (k + 1)
      simpa [Nat.add_assoc, Nat.add_comm 1 k] using hk
    simp only [maxElemScan]
    by_cases hlt : b < x
    · rw [if_pos (by simpa using hlt)]
      have hinv1 : ∀ j y, j < cur + 1 → l.get? j = some y →
          y ≤ x ∧ (j < cur → y < x) := by
        intro j y hj hy
        rcases Nat.lt_or_ge j cur with hjc | hjc
        · have hold := (hinv j y hjc hy).1
          exact ⟨le_of_lt (lt_of_le_of_lt hold hlt),
            fun _ => lt_of_le_of_lt hold hlt⟩
        · have hjeq : j = cur := by omega
          rw [hjeq, hcur] at hy
          have hyx : y = x := by
            exact (Option.some.injEq _ _).mp hy.symm
          exact ⟨le_of_eq hyx, fun hc => absurd (hjeq ▸ hc) (lt_irrefl cur)⟩
      obtain ⟨g1, g2, g3, g4⟩ :=
        ih x cur (cur + 1) hcur (Nat.lt_succ_self cur) hsuffix1 hinv1
      refine ⟨g1, le_of_lt (lt_of_lt_of_le hlt g2), fun z hz => ?_, g4⟩
      rcases List.mem_cons.mp hz with hz | hz
      · exact hz ▸ g2
      · exact g3 z hz
    · rw [if_neg (by simpa using hlt)]
      have hxb : x ≤ b := le_of_not_lt hlt
      have hinv1 : ∀ j y, j < cur + 1 → l.get? j = some y →
          y ≤ b ∧ (j < bi → y < b) := by
        intro j y hj hy
        rcases Nat.lt_or_ge j cur with hjc | hjc
        · exact hinv j y hjc hy
        · have hjeq : j = cur := by omega
          rw [hjeq, hcur] at hy
          have hyx : y = x := by
            exact (Option.some.injEq _ _).mp hy.symm
          exact ⟨hyx ▸ hxb, fun hc => absurd hc (by omega)⟩
      obtain ⟨g1, g2, g3, g4⟩ :=
        ih b bi (cur + 1) hget (Nat.lt_succ_of_lt hbicur) hsuffix1 hinv1
      refine ⟨g1, g2, fun z hz => ?_, g4⟩
      rcases List.mem_cons.mp hz with hz | hz
      · exact hz ▸ le_trans hxb g2
      · exact g3 z hz

/-- C6: `max_among` returns the maximum of the argument pack under the
default less-than ordering, and the position the `std::max_element` scan
selects is the leftmost occurrence of that maximum (every strictly earlier
argument is strictly smaller); in particular `max_among(1, 2, 5, 4, 3) = 5`. -/
theorem max_among_spec :
    (∀ (α : Type) [LinearOrder α] (first : α) (rest : List α),
      max_among first rest =
        (maxElemScan (fun a c => decide (a < c)) first 0 1 rest).1 ∧
      (first :: rest).get?
          (maxElemScan (fun a c => decide (a < c)) first 0 1 rest).2 =
        some (max_among first rest) ∧
      (∀ x ∈ first :: rest, x ≤ max_among first rest) ∧
      (∀ j y, j < (maxElemScan (fun a c => decide (a < c)) first 0 1 rest).2 →
        (first :: rest).get? j = some y → y < max_among first rest)) ∧
    max_among (1 : Int) [2, 5, 4, 3] = 5 := by
  refine ⟨?_, by decide⟩
  intro α inst first rest
  have hget : (first :: rest).get? 0 = some first := rfl
  have hsuffix : ∀ k, rest.get? k = (first :: rest).get? (1 + k) := by
    intro k
    rw [Nat.add_comm 1 k]
    rfl
  have hinv : ∀ j y, j < 1 → (first :: rest).get? j = some y →
      y ≤ first ∧ (j < 0 → y < first) := by
    intro j y hj hy
    have hj0 : j = 0 := by omega
    rw [hj0] at hy
    have : y = first := by
      exact (Option.some.injEq _ _).mp hy.symm
    exact ⟨le_of_eq this, fun hc => absurd hc (by omega)⟩
  obtain ⟨g1, g2, g3, g4⟩ :=
    maxElemScan_invariant (first :: rest) rest first 0 1 hget Nat.one_pos
      hsuffix hinv
  refine ⟨rfl, g1, fun z hz => ?_, g4⟩
  rcases List.mem_cons.mp hz with hz | hz
  · exact hz ▸ g2
  · exact g3 z hz

/-- C7: `max_among_trunc` converts every later argument to the type of the
first (via the modelled `static_cast`) before any comparison and then takes
the maximum in that type; in particular
`max_among_trunc(1, 2, 5.0, 4.3, 3) = 5`, with `4.3` truncated to `4`. -/
theorem max_among_trunc_spec :
    (∀ (α β : Type) [LinearOrder α] (conv : β → α) (first : α)
      (rest : List β),
      max_among_trunc conv first rest = max_among first (rest.map conv)) ∧
    max_among_trunc ratTruncToInt 1 [2, 5.0, 4.3, 3] = 5 ∧
    ratTruncToInt 4.3 = 4 := by
  have h2 : ratTruncToInt 2 = 2 := by
    simp only [ratTruncToInt]
    rw [if_pos (by norm_num)]
    norm_num
  have h5 : ratTruncToInt 5.0 = 5 := by
    simp only [ratTruncToInt]
    rw [if_pos (by norm_num)]
    norm_num
  have h43 : ratTruncToInt 4.3 = 4 := by
    simp only [ratTruncToInt]
    rw [if_pos (by norm_num)]
    norm_num
  have h3 : ratTruncToInt 3 = 3 := by
    simp only [ratTruncToInt]
    rw [if_pos (by norm_num)]
    norm_num
  refine ⟨fun α β inst conv first rest => rfl, ?_, h43⟩
  show max_among 1 ([2, 5.0, 4.3, 3].map ratTruncToInt) = 5
  simp only [List.map_cons, List.map_nil, h2, h5, h43, h3]
  decide

/-- C5: after the one-argument `sort`, the container holds the same multiset
of elements (a permutation of the input), every adjacent pair is in
non-decreasing order under the default ordering, and in particular sorting
`[9, 1, 3, 4, 2]` yields `[1, 2, 3, 4, 9]`. -/
theorem sort_spec :
    (∀ (α : Type) [LinearOrder α] (l : List α),
      (Trx.sort l).Perm l ∧ List.Chain' (· ≤ ·) (Trx.sort l)) ∧
    Trx.sort ([9, 1, 3, 4, 2] : List Int) = [1, 2, 3, 4, 9] := by
  refine ⟨fun α inst l => ⟨List.perm_insertionSort _ l, ?_⟩, by decide⟩
  exact List.Pairwise.chain' (List.sorted_insertionSort _ l)

/-- C9: sorting is idempotent — a container whose element sequence is already
sorted under the active (default) comparator is left unchanged by `sort`. -/
theorem sort_idempotent (α : Type) [LinearOrder α] (l : List α)
    (h : List.Sorted (· ≤ ·) l) : Trx.sort l = l :=
  List.eq_of_perm_of_sorted (List.perm_insertionSort _ l)
    (List.sorted_insertionSort _ l) h

theorem sort_idempotent_witness :
    List.Sorted (· ≤ ·) ([1, 2, 3] : List Int) ∧
      Trx.sort ([1, 2, 3] : List Int) = [1, 2, 3] :=
  ⟨by decide, sort_idempotent Int [1, 2, 3] (by decide)⟩

/-- C2 (evidence of the code bug): the two-argument `trx::sort` forwards to
`detail_trx::sort_impl(container, comp)`, but each of the three `sort_impl`
overloads declared in the source takes exactly one argument (the container),
so no overload accepts the two-argument call and the comparator-taking
`sort` cannot compile for any container. -/
theorem sort_with_comparator_has_no_overload :
    (2 ∉ sortImplOverloadArities) ∧
      sortImplOverloadArities.all (fun a => a == 1) = true := by
  refine ⟨by decide, by decide⟩

end Trx
